import Mathlib

/-!
Verification of the VFS indirection layer of the undefined-os kernel:
the pipe ring buffer and its non-blocking read/write protocol
(src/api/src/core/file/pipe.rs), the dynamic filesystem inode allocator and
directory enumeration (src/api/src/core/fs/pseudo/dynamic.rs), the file
descriptor table (src/api/src/core/file/fd.rs, src/api/src/imp/fs/fd_ops.rs),
and the epoll readiness poll (src/api/src/core/file/epoll.rs).

Shared mutable state (the ring buffer behind Arc<Mutex>, the fd table behind
a RwLock, the slab behind a Mutex) is modelled by explicit state passing: each
operation takes the guarded state and returns the updated state together with
its result.  Machine integers (usize, u64) are modelled as Nat; the only
wrap-around the source relies on is the explicit "% RING_BUFFER_SIZE" in the
ring buffer, which is kept verbatim.  Rust panics (out-of-bounds slab access)
are modelled as Option.none.  The cooperative yield loops of the pipe are
modelled in a sequential (single-task) setting: while one call runs, no other
task can mutate the shared buffer, so a call that reaches task_yield would
find the identical state on every retry; such an execution is rendered as the
outcome "blocked".
-/

/-- The subset of axerrno::LinuxError values used by the modelled code. -/
inductive LinuxError where
  | EPERM
  | EAGAIN
  | EBADF
  | EMFILE
  | ENOENT
  | EEXIST
  | EINVAL
  deriving DecidableEq, Repr

/-! ## Pipe ring buffer (src/api/src/core/file/pipe.rs, lines 12-78) -/

/-- RingBufferStatus from pipe.rs: tri-state tag disambiguating head == tail. -/
inductive RingBufferStatus where
  | Full
  | Empty
  | Normal
  deriving DecidableEq, Repr

/-- RING_BUFFER_SIZE = PIPE_MAX_SIZE = 65536 in pipe.rs. -/
def RING_BUFFER_SIZE : Nat := 65536

/-- PipeRingBuffer from pipe.rs.  The fixed u8 array arr is modelled as a
function from index to byte value (bytes as Nat; no arithmetic is ever done
on them).  Indices used by the code are below RING_BUFFER_SIZE whenever the
well-formedness invariant PipeWF holds. -/
structure PipeRingBuffer where
  arr : Nat → Nat
  head : Nat
  tail : Nat
  status : RingBufferStatus

namespace PipeRingBuffer

/-- PipeRingBuffer::new(): zeroed array, head = tail = 0, status Empty. -/
def new : PipeRingBuffer :=
  ⟨fun _ => 0, 0, 0, .Empty⟩

/-- PipeRingBuffer::write_byte (pipe.rs lines 40-47).  The source first sets
status to Normal, stores at tail, advances tail mod the capacity, and switches
to Full when the new tail catches up with head. -/
def write_byte (s : PipeRingBuffer) (b : Nat) : PipeRingBuffer :=
  let tail' := (s.tail + 1) % RING_BUFFER_SIZE
  ⟨Function.update s.arr s.tail b, s.head, tail',
   if tail' = s.head then .Full else .Normal⟩

/-- PipeRingBuffer::read_byte (pipe.rs lines 49-57). -/
def read_byte (s : PipeRingBuffer) : Nat × PipeRingBuffer :=
  let head' := (s.head + 1) % RING_BUFFER_SIZE
  (s.arr s.head,
   ⟨s.arr, head', s.tail, if head' = s.tail then .Empty else .Normal⟩)

/-- PipeRingBuffer::available_read (pipe.rs lines 60-68). -/
def available_read (s : PipeRingBuffer) : Nat :=
  if s.status = .Empty then 0
  else if s.head < s.tail then s.tail - s.head
  else s.tail + RING_BUFFER_SIZE - s.head

/-- PipeRingBuffer::available_write (pipe.rs lines 71-77). -/
def available_write (s : PipeRingBuffer) : Nat :=
  if s.status = .Full then 0 else RING_BUFFER_SIZE - s.available_read

/-- Write each byte of a list in order (the repeated write_byte calls done by
the loops in Pipe::write). -/
def writeList (s : PipeRingBuffer) (bs : List Nat) : PipeRingBuffer :=
  bs.foldl write_byte s

/-- Read n bytes in order (the repeated read_byte calls done by Pipe::read),
returning them together with the final buffer state. -/
def readN (s : PipeRingBuffer) : Nat → List Nat × PipeRingBuffer
  | 0 => ([], s)
  | n + 1 =>
    ((read_byte s).1 :: (readN (read_byte s).2 n).1, (readN (read_byte s).2 n).2)

/-- Well-formedness of a ring buffer state: cursors in range and the status
tag consistent with the head/tail relation.  Holds for new and is preserved
by write_byte / read_byte. -/
def PipeWF (s : PipeRingBuffer) : Prop :=
  s.head < RING_BUFFER_SIZE ∧ s.tail < RING_BUFFER_SIZE ∧
    (s.status = .Empty → s.head = s.tail) ∧
    (s.status = .Full → s.head = s.tail) ∧
    (s.status = .Normal → s.head ≠ s.tail)

instance : DecidablePred PipeWF := fun s => by
  unfold PipeWF; infer_instance

/-- Abstraction function: the queue of bytes currently held, from head to
tail. -/
def queueOf (s : PipeRingBuffer) : List Nat :=
  (List.range s.available_read).map fun i => s.arr ((s.head + i) % RING_BUFFER_SIZE)

end PipeRingBuffer

/-! ## Pipe read/write protocol (src/api/src/core/file/pipe.rs, lines 124-199)

The FileLike::read / FileLike::write loops for Pipe, in the sequential model:
a pass that reaches task_yield_interruptable would see the same buffer on
every retry (no other task runs inside the modelled call), so that execution
is the outcome "blocked".  write_end_close() (Arc strong count of the shared
buffer equal to one, pipe.rs line 114) is modelled as the boolean
writerClosed, constant during the call. -/

/-- Result of a pipe read/write call: Ok(n), Err(e), or an execution that
parks in the cooperative wait loop forever. -/
inductive PipeOut where
  | ok (n : Nat)
  | err (e : LinuxError)
  | blocked
  deriving DecidableEq, Repr

open PipeRingBuffer in
/-- The loop of Pipe::read (pipe.rs lines 131-155).  readSize and acc carry
the bytes already placed in the caller's buffer.  One iteration reads
loop_read = available_read and either returns early (the for loop hits
read_size == max_len, possible only when max_len - read_size < loop_read),
drains loop_read bytes and loops again, or handles the empty case.  The
recursion is reached only with 1 <= loop_read <= maxLen - readSize, so
maxLen - readSize decreases. -/
def pipe_read_go (writerClosed nonBlock : Bool) (maxLen : Nat) :
    PipeRingBuffer → Nat → List Nat → PipeOut × List Nat × PipeRingBuffer :=
  fun s readSize acc =>
    let loopRead := s.available_read
    if h0 : loopRead = 0 then
      if writerClosed || readSize > 0 then (.ok readSize, acc, s)
      else if nonBlock then (.err .EAGAIN, acc, s)
      else (.blocked, acc, s)
    else if h1 : maxLen - readSize < loopRead then
      let r := readN s (maxLen - readSize)
      (.ok maxLen, acc ++ r.1, r.2)
    else
      let r := readN s loopRead
      pipe_read_go writerClosed nonBlock maxLen r.2 (readSize + loopRead) (acc ++ r.1)
  termination_by s readSize => maxLen - readSize
  decreasing_by
    simp only [loopRead] at h0 h1 ⊢
    omega

open PipeRingBuffer in
/-- Pipe::read (pipe.rs lines 124-156), including the initial readable /
EPERM check.  maxLen is buf.len(); the returned list is the data placed into
the caller's buffer. -/
def pipe_read (readable writerClosed nonBlock : Bool) (s : PipeRingBuffer)
    (maxLen : Nat) : PipeOut × List Nat × PipeRingBuffer :=
  if !readable then (.err .EPERM, [], s)
  else pipe_read_go writerClosed nonBlock maxLen s 0 []

open PipeRingBuffer in
/-- The loop of Pipe::write (pipe.rs lines 165-198).  buf is the caller's
data, maxLen = buf.len(), writeSize the bytes already pushed.  One iteration
computes loop_write = available_write; in non-blocking mode with
loop_write < max_len it applies the small/large-write policy; otherwise the
for loop pushes bytes until write_size == max_len (early return, possible
only when max_len - write_size < loop_write) or loop_write bytes were pushed
(then it loops again).  The recursion is reached only with
1 <= loop_write <= maxLen - writeSize, so maxLen - writeSize decreases. -/
def pipe_write_go (nonBlock : Bool) (buf : List Nat) (maxLen : Nat) :
    PipeRingBuffer → Nat → PipeOut × PipeRingBuffer :=
  fun s writeSize =>
    let loopWrite := s.available_write
    if nonBlock ∧ loopWrite < maxLen then
      if maxLen ≤ RING_BUFFER_SIZE then (.err .EAGAIN, s)
      else if loopWrite = 0 then (.err .EAGAIN, s)
      else (.ok (writeSize + loopWrite),
            writeList s ((buf.drop writeSize).take loopWrite))
    else if h0 : loopWrite = 0 then (.blocked, s)
    else if h1 : maxLen - writeSize < loopWrite then
      (.ok maxLen, writeList s ((buf.drop writeSize).take (maxLen - writeSize)))
    else
      pipe_write_go nonBlock buf maxLen
        (writeList s ((buf.drop writeSize).take loopWrite)) (writeSize + loopWrite)
  termination_by s writeSize => maxLen - writeSize
  decreasing_by
    simp only [loopWrite] at h0 h1 ⊢
    omega

open PipeRingBuffer in
/-- Pipe::write (pipe.rs lines 158-199), including the initial writable /
EPERM check. -/
def pipe_write (writable nonBlock : Bool) (s : PipeRingBuffer) (buf : List Nat) :
    PipeOut × PipeRingBuffer :=
  if !writable then (.err .EPERM, s)
  else pipe_write_go nonBlock buf buf.length s 0

/-- A well-formed ring buffer holding 65535 bytes (head 0, tail 65535,
Normal): exactly one free byte of space, as after writing 65535 bytes into a
fresh pipe. -/
def c1state : PipeRingBuffer := ⟨fun _ => 0, 0, 65535, .Normal⟩

/-! ## DynamicFs inode allocator (src/api/src/core/fs/pseudo/dynamic.rs)

DynamicFs keeps inodes: Mutex<Slab<()>>; alloc_inode returns
slab.insert(()) + 1 and release_inode removes ino - 1.  The slab crate's
Slab is a vector of occupied/vacant entries plus the head of the free list
(field next); insert reuses self.next when it points into the vector,
otherwise pushes at the end; remove marks the slot vacant and chains it onto
the free list.  A panic of the Rust slab (indexing a missing or vacant slot)
is modelled as none. -/

/-- One slot of slab::Slab<()>: occupied, or vacant carrying the next free
index. -/
inductive SlabEntry where
  | occupied
  | vacant (next : Nat)
  deriving DecidableEq, Repr

/-- slab::Slab<()>: entry vector plus head of the free list. -/
structure Slab where
  entries : List SlabEntry
  next : Nat
  deriving DecidableEq, Repr

/-- Slab::new(). -/
def Slab.new : Slab := ⟨[], 0⟩

/-- Slab::insert(()): key = self.next; push when key == entries.len(), else
reuse the vacant slot at key and advance the free list.  Returns the key and
the new slab; none models the unreachable! panic on a corrupt free list. -/
def Slab.insert (s : Slab) : Option (Nat × Slab) :=
  let key := s.next
  if key = s.entries.length then
    some (key, ⟨s.entries ++ [.occupied], key + 1⟩)
  else
    match s.entries.get? key with
    | some (.vacant n) => some (key, ⟨s.entries.set key .occupied, n⟩)
    | _ => none

/-- Slab::remove(key): replace the occupied slot with vacant(self.next) and
point the free list at key; none models the panic on an invalid key. -/
def Slab.remove (s : Slab) (key : Nat) : Option Slab :=
  match s.entries.get? key with
  | some .occupied => some ⟨s.entries.set key (.vacant s.next), key⟩
  | _ => none

/-- A step of a DynamicFs lifetime trace: DynamicNode::new (which calls
fs.alloc_inode, dynamic.rs lines 111-135) or Drop for DynamicNode (which
calls fs.release_inode(self.ino), dynamic.rs lines 163-167). -/
inductive FsOp where
  | create
  | destroy (ino : Nat)
  deriving DecidableEq, Repr

/-- The allocator-relevant state of one DynamicFs: the slab plus the inode
numbers of the currently live DynamicNodes. -/
structure FsState where
  slab : Slab
  live : List Nat
  deriving DecidableEq, Repr

/-- A fresh DynamicFs: empty slab, no live nodes. -/
def FsState.init : FsState := ⟨Slab.new, []⟩

/-- Execute one trace step.  create: ino = alloc_inode() = insert + 1, the
new node is live.  destroy ino: only a live node can be dropped; its Drop
runs release_inode(ino) = slab.remove(ino - 1). -/
def FsState.step (st : FsState) : FsOp → Option FsState
  | .create =>
    (st.slab.insert).map fun r => ⟨r.2, st.live ++ [r.1 + 1]⟩
  | .destroy ino =>
    if ino ∈ st.live then
      (st.slab.remove (ino - 1)).map fun s2 => ⟨s2, st.live.erase ino⟩
    else none

/-- Run a trace of creations/destructions from a state. -/
def FsState.run (st : FsState) : List FsOp → Option FsState
  | [] => some st
  | op :: ops =>
    match st.step op with
    | some st2 => st2.run ops
    | none => none

/-- Invariant of the allocator state: live inode numbers are exactly backed
by occupied slab slots (each live ino is at least 1 and slot ino - 1 is
occupied), and no two distinct live-list positions hold the same ino. -/
def FsInv (st : FsState) : Prop :=
  st.live.Nodup ∧
    ∀ ino ∈ st.live, 1 ≤ ino ∧ st.slab.entries.get? (ino - 1) = some .occupied

/-! ## DynamicDir enumeration (src/api/src/core/fs/pseudo/dynamic.rs 267-302)

The children field is an Arc<BTreeMap<String, DynNodeOps>> (name-ordered);
the builder's add inserts into the map.  read_dir chains [DOT, DOTDOT], the
map keys in ascending order, and the pseudo children, enumerates from the
given offset, resolves each name's metadata (in the modelled scenario every
lookup succeeds; the inode obtained for a name is abstracted as metaOf name),
and feeds (name, inode, node_type, i + 1) to the sink, stopping at the first
rejection; it returns the count of accepted entries. -/

/-- BTreeMap::insert on a name-sorted association list (String keys kept in
strictly ascending order). -/
def btreeInsert {α : Type} : List (String × α) → String → α → List (String × α)
  | [], k, v => [(k, v)]
  | (k2, v2) :: rest, k, v =>
    if k < k2 then (k, v) :: (k2, v2) :: rest
    else if k = k2 then (k, v) :: rest
    else (k2, v2) :: btreeInsert rest k v

/-- The constant DOT from undefined_vfs::path. -/
def DOT : String := "."

/-- The constant DOTDOT from undefined_vfs::path. -/
def DOTDOT : String := ".."

/-- The chained name sequence of read_dir: special children, then the static
(BTreeMap-ordered) children, then the pseudo children. -/
def allChildren (staticKeys pseudo : List String) : List String :=
  DOT :: DOTDOT :: (staticKeys ++ pseudo)

/-- One entry as passed to DirEntrySink::accept: name, inode, and the
continuation offset i + 1. -/
structure EmittedEntry where
  name : String
  ino : Nat
  token : Nat
  deriving DecidableEq, Repr

/-- The enumeration loop of read_dir over the remaining (index, name) pairs:
accept until the sink rejects, counting accepted entries (count += 1 happens
after a successful accept; a rejection breaks out of the loop). -/
def readDirGo (metaOf : String → Nat) (sink : String → Nat → Nat → Bool) :
    List (Nat × String) → Nat × List EmittedEntry
  | [] => (0, [])
  | (i, name) :: rest =>
    if sink name (metaOf name) (i + 1) then
      let r := readDirGo metaOf sink rest
      (r.1 + 1, ⟨name, metaOf name, i + 1⟩ :: r.2)
    else (0, [])

/-- DynamicDir::read_dir (dynamic.rs lines 267-302) in the scenario where
every child lookup succeeds: enumerate all children, skip to offset, emit
entries until the sink rejects; the Nat returned is the source's count. -/
def read_dir (staticKeys pseudo : List String) (metaOf : String → Nat)
    (offset : Nat) (sink : String → Nat → Nat → Bool) :
    Nat × List EmittedEntry :=
  readDirGo metaOf sink (((allChildren staticKeys pseudo).enum).drop offset)

/-! ## DynamicNode metadata (src/api/src/core/fs/pseudo/dynamic.rs 106-135,
208-235) -/

/-- undefined_vfs::types::Metadata as constructed in DynamicNode::new
(dynamic.rs lines 114-128): the full fixed-shape record.  Permission bits,
node type, device ids and Durations are modelled as Nat. -/
structure Metadata where
  device : Nat
  inode : Nat
  n_link : Nat
  mode : Nat
  node_type : Nat
  uid : Nat
  gid : Nat
  size : Nat
  block_size : Nat
  n_blocks : Nat
  raw_device : Nat
  access_time : Nat
  modify_time : Nat
  change_time : Nat
  deriving DecidableEq, Repr

/-- Modelled from the spec: undefined_vfs::types::MetadataUpdate is defined
in the external undefined_vfs crate, which is not under src/.  Per the spec's
partial-update semantics and the fields consulted by
DynamicNode::update_metadata and constructed by the syscall layer
(imp/fs/path.rs), it carries optional new values for the permission mode, the
owner (uid, gid) pair, the access time and the modify time. -/
structure MetadataUpdate where
  mode : Option Nat
  owner : Option (Nat × Nat)
  atime : Option Nat
  mtime : Option Nat
  deriving DecidableEq, Repr

/-- DynamicNode::update_metadata (dynamic.rs lines 219-235): overwrite
exactly the supplied fields of the locked metadata record. -/
def Metadata.update_metadata (m : Metadata) (u : MetadataUpdate) : Metadata :=
  let m1 := match u.mode with
    | some mode => { m with mode := mode }
    | none => m
  let m2 := match u.owner with
    | some ug => { m1 with uid := ug.1, gid := ug.2 }
    | none => m1
  let m3 := match u.atime with
    | some atime => { m2 with access_time := atime }
    | none => m2
  match u.mtime with
  | some mtime => { m3 with modify_time := mtime }
  | none => m3

/-- A DynamicNode: its immutable ino field plus the mutable metadata record
behind the Mutex. -/
structure DynamicNode where
  ino : Nat
  metadata : Metadata
  deriving DecidableEq, Repr

/-- update_metadata at the node level: only the metadata record is touched
(the source method only locks self.metadata; self.ino is untouched). -/
def DynamicNode.update_metadata (n : DynamicNode) (u : MetadataUpdate) :
    DynamicNode :=
  { n with metadata := n.metadata.update_metadata u }

/-! ## File descriptor table (src/api/src/core/file/fd.rs, imp/fs/fd_ops.rs)

FdTable wraps FlattenObjects<FdTableItem, RLIMIT_MAX_FILES>: a fixed-capacity
array of optional items.  It is modelled as a list of Option FdTableItem
whose length is the capacity.  FlattenObjects::add places the item at the
lowest free id and fails when the table is full; FdTable::add maps that
failure to EMFILE.  An Arc<dyn FileLike> handle is modelled as an opaque Nat
identifier: two entries holding the same identifier share the same underlying
object.  FdFlags is the raw u32 bit set (bit FD_CLOEXEC = 1); FdFlags::empty()
is 0. -/

/-- FdTableItem from fd.rs: the shared file-like handle and the per-entry fd
flags. -/
structure FdTableItem where
  file_like : Nat
  flags : Nat
  deriving DecidableEq, Repr

/-- FdFlags::CLOSE_ON_EXEC = FD_CLOEXEC = 1. -/
def FD_CLOEXEC : Nat := 1

/-- FlattenObjects::count: number of occupied slots. -/
def tableCount : List (Option FdTableItem) → Nat
  | [] => 0
  | none :: rest => tableCount rest
  | some _ :: rest => 1 + tableCount rest

/-- The id-scan of FlattenObjects::add: lowest free slot index, if any. -/
def findFree : List (Option FdTableItem) → Option Nat
  | [] => none
  | none :: _ => some 0
  | some _ :: rest => (findFree rest).map (· + 1)

/-- FdTable::add (fd.rs lines 128-133): place at the lowest free id, or fail
with EMFILE when the fixed capacity is exhausted. -/
def FdTable.add (t : List (Option FdTableItem)) (item : FdTableItem) :
    Except LinuxError (Nat × List (Option FdTableItem)) :=
  match findFree t with
  | none => .error .EMFILE
  | some fd => .ok (fd, t.set fd (some item))

/-- FdTable::get_item (fd.rs lines 121-125): EBADF when the slot is absent. -/
def FdTable.get_item (t : List (Option FdTableItem)) (fd : Nat) :
    Except LinuxError FdTableItem :=
  match t.get? fd with
  | some (some item) => .ok item
  | _ => .error .EBADF

/-- FdTable::remove (fd.rs lines 152-156). -/
def FdTable.remove (t : List (Option FdTableItem)) (fd : Nat) :
    Except LinuxError (List (Option FdTableItem)) :=
  match t.get? fd with
  | some (some _) => .ok (t.set fd none)
  | _ => .error .EBADF

/-- fd_add (fd.rs lines 223-233): compare the table's current entry count
with the externally supplied soft limit for NOFILE before delegating to
FdTable::add. -/
def fd_add (limit : Nat) (t : List (Option FdTableItem)) (item : FdTableItem) :
    Except LinuxError (Nat × List (Option FdTableItem)) :=
  if tableCount t ≥ limit then .error .EMFILE
  else FdTable.add t item

/-- n consecutive fd_add calls (item contents are irrelevant to the limit
logic); none when any of them fails. -/
def addIter (limit : Nat) :
    List (Option FdTableItem) → Nat → Option (List (Option FdTableItem))
  | t, 0 => some t
  | t, n + 1 =>
    match fd_add limit t ⟨0, 0⟩ with
    | .ok r => addIter limit r.2 n
    | .error _ => none

/-- sys_dup (imp/fs/fd_ops.rs lines 80-86): look up the old descriptor's
file-like handle and add it as a fresh descriptor with empty fd flags (the
close-on-exec flag of the duplicate is off). -/
def sys_dup (limit : Nat) (t : List (Option FdTableItem)) (oldFd : Nat) :
    Except LinuxError (Nat × List (Option FdTableItem)) :=
  match t.get? oldFd with
  | some (some item) => fd_add limit t ⟨item.file_like, 0⟩
  | _ => .error .EBADF

/-! ## Epoll readiness polling (src/api/src/core/file/epoll.rs, lines 67-96)

EpollInstance::poll_all iterates the BTreeMap of watched descriptors (in
ascending fd order, modelled as the list watch), looks every fd up in the
descriptor table (the ? on fd_lookup propagates EBADF for a stale entry,
aborting the whole call), polls the ones that exist, and collects an EPOLLERR
/ EPOLLIN / EPOLLOUT event for each bit that was both requested and observed.
The descriptor-table view is the function lookup: none when the fd is absent
(fd_lookup fails with EBADF), otherwise the outcome of FileLike::poll. -/

/-- linux_raw_sys epoll_event: requested/received event bits plus user data. -/
structure EpollEvent where
  events : Nat
  data : Nat
  deriving DecidableEq, Repr

/-- axio::PollState. -/
structure PollState where
  readable : Bool
  writable : Bool
  deriving DecidableEq, Repr

/-- EPOLLIN bit. -/
def EPOLLIN : Nat := 1

/-- EPOLLOUT bit. -/
def EPOLLOUT : Nat := 4

/-- EPOLLERR bit. -/
def EPOLLERR : Nat := 8

/-- EpollInstance::poll_all: returns the reported events (the source writes
them into the caller's array and returns their number). -/
def poll_all (lookup : Nat → Option (Except LinuxError PollState)) :
    List (Nat × EpollEvent) → Except LinuxError (List EpollEvent)
  | [] => .ok []
  | (fd, ev) :: rest =>
    match lookup fd with
    | none => .error .EBADF
    | some (.error _) =>
      let here := if ev.events &&& EPOLLERR ≠ 0 then [⟨EPOLLERR, ev.data⟩] else []
      (poll_all lookup rest).map (here ++ ·)
    | some (.ok st) =>
      let hin := if st.readable ∧ ev.events &&& EPOLLIN ≠ 0
        then [(⟨EPOLLIN, ev.data⟩ : EpollEvent)] else []
      let hout := if st.writable ∧ ev.events &&& EPOLLOUT ≠ 0
        then [(⟨EPOLLOUT, ev.data⟩ : EpollEvent)] else []
      (poll_all lookup rest).map (hin ++ hout ++ ·)

/-! ## Ring buffer lemmas -/

namespace PipeRingBuffer

theorem available_read_def (s : PipeRingBuffer) :
    s.available_read = if s.status = .Empty then 0
      else if s.head < s.tail then s.tail - s.head
      else s.tail + RING_BUFFER_SIZE - s.head := rfl

theorem write_byte_arr (s : PipeRingBuffer) (b : Nat) :
    (s.write_byte b).arr = Function.update s.arr s.tail b := rfl

theorem write_byte_head (s : PipeRingBuffer) (b : Nat) :
    (s.write_byte b).head = s.head := rfl

theorem write_byte_tail (s : PipeRingBuffer) (b : Nat) :
    (s.write_byte b).tail = (s.tail + 1) % RING_BUFFER_SIZE := rfl

theorem write_byte_status (s : PipeRingBuffer) (b : Nat) :
    (s.write_byte b).status =
      if (s.tail + 1) % RING_BUFFER_SIZE = s.head then .Full else .Normal := rfl

theorem read_byte_fst (s : PipeRingBuffer) :
    (s.read_byte).1 = s.arr s.head := rfl

theorem read_byte_arr (s : PipeRingBuffer) :
    (s.read_byte).2.arr = s.arr := rfl

theorem read_byte_head (s : PipeRingBuffer) :
    (s.read_byte).2.head = (s.head + 1) % RING_BUFFER_SIZE := rfl

theorem read_byte_tail (s : PipeRingBuffer) :
    (s.read_byte).2.tail = s.tail := rfl

theorem read_byte_status (s : PipeRingBuffer) :
    (s.read_byte).2.status =
      if (s.head + 1) % RING_BUFFER_SIZE = s.tail then .Empty else .Normal := rfl

theorem rbs_lit : RING_BUFFER_SIZE = 65536 := rfl

theorem wf_new : PipeWF new := by
  refine ⟨?_, ?_, ?_, ?_, ?_⟩ <;> first
  | exact Nat.zero_lt_succ _
  | intro hx
    first
    | rfl
    | cases hx

theorem queueOf_length (s : PipeRingBuffer) :
    (queueOf s).length = s.available_read := by
  simp [queueOf]

theorem avail_le (s : PipeRingBuffer) (h : PipeWF s) :
    s.available_read ≤ RING_BUFFER_SIZE := by
  obtain ⟨h1, h2, h3, h4, h5⟩ := h
  rw [available_read_def]
  split_ifs <;> omega

theorem avail_full (s : PipeRingBuffer) (h : PipeWF s) (hf : s.status = .Full) :
    s.available_read = RING_BUFFER_SIZE := by
  obtain ⟨h1, h2, h3, h4, h5⟩ := h
  have he : s.head = s.tail := h4 hf
  rw [available_read_def, hf,
    if_neg (by decide : ¬(RingBufferStatus.Full = RingBufferStatus.Empty))]
  rw [rbs_lit] at h1 h2 ⊢
  split_ifs <;> omega

theorem avail_lt (s : PipeRingBuffer) (h : PipeWF s) (hf : s.status ≠ .Full) :
    s.available_read < RING_BUFFER_SIZE := by
  obtain ⟨h1, h2, h3, h4, h5⟩ := h
  rw [available_read_def]
  rw [rbs_lit] at h1 h2 ⊢
  cases hs : s.status with
  | Full => exact absurd hs hf
  | Empty => rw [if_pos rfl]; omega
  | Normal =>
    have hne := h5 hs
    rw [if_neg (by decide : ¬(RingBufferStatus.Normal = RingBufferStatus.Empty))]
    split_ifs <;> omega

theorem avail_pos (s : PipeRingBuffer) (h : PipeWF s) (he : s.status ≠ .Empty) :
    1 ≤ s.available_read := by
  obtain ⟨h1, h2, h3, h4, h5⟩ := h
  rw [available_read_def]
  rw [rbs_lit] at h1 h2 ⊢
  cases hs : s.status with
  | Empty => exact absurd hs he
  | Full =>
    have heq := h4 hs
    rw [if_neg (by decide : ¬(RingBufferStatus.Full = RingBufferStatus.Empty))]
    split_ifs <;> omega
  | Normal =>
    have hne := h5 hs
    rw [if_neg (by decide : ¬(RingBufferStatus.Normal = RingBufferStatus.Empty))]
    split_ifs <;> omega

theorem avail_zero_iff (s : PipeRingBuffer) (h : PipeWF s) :
    s.available_read = 0 ↔ s.status = .Empty := by
  constructor
  · intro hz
    by_contra he
    have := avail_pos s h he
    omega
  · intro he
    rw [available_read_def, he, if_pos rfl]

theorem available_write_eq (s : PipeRingBuffer) (h : PipeWF s) :
    s.available_write = RING_BUFFER_SIZE - s.available_read := by
  unfold available_write
  split_ifs with hf
  · rw [avail_full s h hf]
    omega
  · rfl

/-- The slot one past the queue end is exactly tail. -/
theorem tail_index (s : PipeRingBuffer) (h : PipeWF s) (hf : s.status ≠ .Full) :
    (s.head + s.available_read) % RING_BUFFER_SIZE = s.tail := by
  obtain ⟨h1, h2, h3, h4, h5⟩ := h
  rw [available_read_def]
  rw [rbs_lit] at h1 h2 ⊢
  cases hs : s.status with
  | Full => exact absurd hs hf
  | Empty =>
    have heq := h3 hs
    rw [if_pos rfl]
    omega
  | Normal =>
    have hne := h5 hs
    rw [if_neg (by decide : ¬(RingBufferStatus.Normal = RingBufferStatus.Empty))]
    split_ifs <;> omega

theorem write_byte_wf (s : PipeRingBuffer) (b : Nat) (h : PipeWF s)
    (hf : s.status ≠ .Full) : PipeWF (s.write_byte b) := by
  obtain ⟨h1, h2, h3, h4, h5⟩ := h
  rw [rbs_lit] at h1 h2
  refine ⟨by rw [write_byte_head, rbs_lit]; omega,
    by rw [write_byte_tail, rbs_lit]; omega, ?_, ?_, ?_⟩ <;>
    rw [write_byte_status, write_byte_head, write_byte_tail, rbs_lit] <;>
    by_cases hc : (s.tail + 1) % 65536 = s.head <;>
    simp [hc] <;> omega

theorem write_byte_avail (s : PipeRingBuffer) (b : Nat) (h : PipeWF s)
    (hf : s.status ≠ .Full) :
    (s.write_byte b).available_read = s.available_read + 1 := by
  obtain ⟨h1, h2, h3, h4, h5⟩ := h
  rw [available_read_def (s.write_byte b), write_byte_status, write_byte_head,
    write_byte_tail, available_read_def s]
  rw [rbs_lit] at h1 h2 ⊢
  by_cases hc : (s.tail + 1) % 65536 = s.head
  · rw [if_pos hc,
      if_neg (by decide : ¬(RingBufferStatus.Full = RingBufferStatus.Empty))]
    cases hs : s.status with
    | Full => exact absurd hs hf
    | Empty =>
      have heq := h3 hs
      rw [if_pos rfl]
      split_ifs <;> omega
    | Normal =>
      have hne := h5 hs
      rw [if_neg (by decide : ¬(RingBufferStatus.Normal = RingBufferStatus.Empty))]
      split_ifs <;> omega
  · rw [if_neg hc,
      if_neg (by decide : ¬(RingBufferStatus.Normal = RingBufferStatus.Empty))]
    cases hs : s.status with
    | Full => exact absurd hs hf
    | Empty =>
      have heq := h3 hs
      rw [if_pos rfl]
      split_ifs <;> omega
    | Normal =>
      have hne := h5 hs
      rw [if_neg (by decide : ¬(RingBufferStatus.Normal = RingBufferStatus.Empty))]
      split_ifs <;> omega

theorem write_byte_queue (s : PipeRingBuffer) (b : Nat) (h : PipeWF s)
    (hf : s.status ≠ .Full) :
    queueOf (s.write_byte b) = queueOf s ++ [b] := by
  have hlt := avail_lt s h hf
  have hidx := tail_index s h hf
  have ha := write_byte_avail s b h hf
  obtain ⟨h1, h2, h3, h4, h5⟩ := h
  unfold queueOf
  rw [ha, write_byte_head, write_byte_arr, List.range_succ, List.map_append]
  congr 1
  · apply List.map_congr_left
    intro i hi
    rw [List.mem_range] at hi
    apply Function.update_noteq
    intro hcontra
    rw [← hidx] at hcontra
    rw [rbs_lit] at hcontra hlt h1 h2
    omega
  · simp only [List.map_cons, List.map_nil]
    rw [hidx, Function.update_same]

theorem read_byte_wf (s : PipeRingBuffer) (h : PipeWF s)
    (he : s.status ≠ .Empty) : PipeWF (s.read_byte).2 := by
  obtain ⟨h1, h2, h3, h4, h5⟩ := h
  rw [rbs_lit] at h1 h2
  refine ⟨by rw [read_byte_head, rbs_lit]; omega,
    by rw [read_byte_tail, rbs_lit]; omega, ?_, ?_, ?_⟩ <;>
    rw [read_byte_status, read_byte_head, read_byte_tail, rbs_lit] <;>
    by_cases hc : (s.head + 1) % 65536 = s.tail <;>
    simp [hc] <;> omega

theorem read_byte_avail (s : PipeRingBuffer) (h : PipeWF s)
    (he : s.status ≠ .Empty) :
    (s.read_byte).2.available_read = s.available_read - 1 := by
  obtain ⟨h1, h2, h3, h4, h5⟩ := h
  rw [available_read_def (s.read_byte).2, read_byte_status, read_byte_head,
    read_byte_tail, available_read_def s]
  rw [rbs_lit] at h1 h2 ⊢
  by_cases hc : (s.head + 1) % 65536 = s.tail
  · rw [if_pos hc, if_pos rfl]
    cases hs : s.status with
    | Empty => exact absurd hs he
    | Full =>
      have heq := h4 hs
      rw [if_neg (by decide : ¬(RingBufferStatus.Full = RingBufferStatus.Empty))]
      split_ifs <;> omega
    | Normal =>
      have hne := h5 hs
      rw [if_neg (by decide : ¬(RingBufferStatus.Normal = RingBufferStatus.Empty))]
      split_ifs <;> omega
  · rw [if_neg hc,
      if_neg (by decide : ¬(RingBufferStatus.Normal = RingBufferStatus.Empty))]
    cases hs : s.status with
    | Empty => exact absurd hs he
    | Full =>
      have heq := h4 hs
      rw [if_neg (by decide : ¬(RingBufferStatus.Full = RingBufferStatus.Empty))]
      split_ifs <;> omega
    | Normal =>
      have hne := h5 hs
      rw [if_neg (by decide : ¬(RingBufferStatus.Normal = RingBufferStatus.Empty))]
      split_ifs <;> omega

theorem read_byte_queue (s : PipeRingBuffer) (h : PipeWF s)
    (he : s.status ≠ .Empty) :
    queueOf s = (s.read_byte).1 :: queueOf (s.read_byte).2 := by
  have hpos := avail_pos s h he
  have ha := read_byte_avail s h he
  obtain ⟨h1, h2, h3, h4, h5⟩ := h
  unfold queueOf
  rw [ha, read_byte_arr, read_byte_head, read_byte_fst]
  obtain ⟨l, hl⟩ : ∃ l, s.available_read = l + 1 :=
    ⟨s.available_read - 1, by omega⟩
  rw [hl]
  simp only [Nat.add_sub_cancel]
  rw [List.range_succ_eq_map]
  simp only [List.map_cons, List.map_map]
  refine congrArg₂ List.cons ?_ ?_
  · rw [Nat.add_zero, Nat.mod_eq_of_lt h1]
  · apply List.map_congr_left
    intro i hi
    simp only [Function.comp_apply]
    rw [Nat.mod_add_mod]
    have hstep : s.head + 1 + i = s.head + Nat.succ i := by omega
    rw [hstep]

theorem queueOf_new : queueOf new = [] := rfl

theorem avail_new : new.available_read = 0 := rfl

/-- Pushing a list of bytes: preserves well-formedness and appends to the
abstract queue, as long as everything fits. -/
theorem writeList_spec (bs : List Nat) : ∀ s : PipeRingBuffer, PipeWF s →
    (queueOf s).length + bs.length ≤ RING_BUFFER_SIZE →
    PipeWF (writeList s bs) ∧ queueOf (writeList s bs) = queueOf s ++ bs := by
  induction bs with
  | nil => intro s h _; simpa [writeList] using h
  | cons b rest ih =>
    intro s h hlen
    have hfull : s.status ≠ .Full := by
      intro hfu
      have := avail_full s h hfu
      rw [queueOf_length] at hlen
      simp only [List.length_cons] at hlen
      omega
    have hw := write_byte_wf s b h hfull
    have hq := write_byte_queue s b h hfull
    have hstep : writeList s (b :: rest) = writeList (s.write_byte b) rest := rfl
    rw [hstep]
    have hlen2 : (queueOf (s.write_byte b)).length + rest.length ≤
        RING_BUFFER_SIZE := by
      rw [hq]
      simp only [List.length_append, List.length_singleton, List.length_cons,
        List.length_nil] at hlen ⊢
      omega
    obtain ⟨hw2, hq2⟩ := ih (s.write_byte b) hw hlen2
    refine ⟨hw2, ?_⟩
    rw [hq2, hq, List.append_assoc, List.singleton_append]

/-- Draining m bytes: returns the first m bytes of the abstract queue and
leaves the rest, preserving well-formedness. -/
theorem readN_spec : ∀ m : Nat, ∀ s : PipeRingBuffer, PipeWF s →
    m ≤ s.available_read →
    (readN s m).1 = (queueOf s).take m ∧ PipeWF (readN s m).2 ∧
      queueOf (readN s m).2 = (queueOf s).drop m := by
  intro m
  induction m with
  | zero => intro s h _; simp [readN, h]
  | succ n ih =>
    intro s h hm
    have hne : s.status ≠ .Empty := by
      intro he
      rw [(avail_zero_iff s h).2 he] at hm
      omega
    have hq := read_byte_queue s h hne
    have hw := read_byte_wf s h hne
    have ha := read_byte_avail s h hne
    obtain ⟨ih1, ih2, ih3⟩ := ih (s.read_byte).2 hw (by omega)
    refine ⟨?_, ih2, ?_⟩
    · show (s.read_byte).1 :: (readN (s.read_byte).2 n).1 = _
      rw [hq, List.take_succ_cons, ih1]
    · show queueOf (readN (s.read_byte).2 n).2 = _
      rw [hq, List.drop_succ_cons, ih3]

end PipeRingBuffer

/-! ## Pipe protocol theorems -/

open PipeRingBuffer

theorem pipe_read_go_closed_empty (nb : Bool) (maxLen readSize : Nat)
    (acc : List Nat) (s : PipeRingBuffer) (h0 : s.available_read = 0) :
    pipe_read_go true nb maxLen s readSize acc = (.ok readSize, acc, s) := by
  rw [pipe_read_go.eq_def]
  simp [h0]

theorem pipe_read_go_closed (nb : Bool) (maxLen : Nat) (s : PipeRingBuffer)
    (readSize : Nat) (acc : List Nat) (h : PipeWF s) (hrs : readSize ≤ maxLen) :
    pipe_read_go true nb maxLen s readSize acc =
      (.ok (readSize + min s.available_read (maxLen - readSize)),
       acc ++ (queueOf s).take (maxLen - readSize),
       (readN s (min s.available_read (maxLen - readSize))).2) := by
  by_cases h0 : s.available_read = 0
  · have hqnil : queueOf s = [] := by
      have := queueOf_length s
      rw [h0] at this
      exact List.length_eq_zero.mp this
    rw [pipe_read_go_closed_empty nb maxLen readSize acc s h0, h0, hqnil]
    simp [readN]
  · by_cases h1 : maxLen - readSize < s.available_read
    · obtain ⟨r1, _, _⟩ := readN_spec (maxLen - readSize) s h (by omega)
      rw [pipe_read_go.eq_def]
      simp only [h0, dite_false, h1, dite_true, dif_pos, dif_neg]
      rw [r1]
      have hmin : min s.available_read (maxLen - readSize) = maxLen - readSize := by
        omega
      rw [hmin]
      have hml : readSize + (maxLen - readSize) = maxLen := by omega
      rw [hml]
    · obtain ⟨r1, rwf, rq⟩ := readN_spec s.available_read s h (le_refl _)
      have hr0 : (readN s s.available_read).2.available_read = 0 := by
        have hlq := queueOf_length (readN s s.available_read).2
        rw [rq] at hlq
        have : (queueOf s).drop s.available_read = [] := by
          apply List.drop_eq_nil_of_le
          rw [queueOf_length]
        rw [this] at hlq
        simpa using hlq.symm
      rw [pipe_read_go.eq_def]
      simp only [h0, dite_false, h1, dite_true, dif_pos, dif_neg]
      rw [pipe_read_go_closed_empty nb maxLen _ _ _ hr0]
      have hmin : min s.available_read (maxLen - readSize) = s.available_read := by
        omega
      rw [hmin, r1]
      have htake : (queueOf s).take s.available_read = queueOf s := by
        rw [← queueOf_length]
        exact List.take_length _
      rw [htake]
      have htake2 : (queueOf s).take (maxLen - readSize) = queueOf s := by
        apply List.take_of_length_le
        rw [queueOf_length]
        omega
      rw [htake2]

/-- C2: when the pipe's write end has no remaining live references, a read
returns immediately (never EAGAIN, never a blocking wait) with the bytes
currently available, min available_read maxLen of them; in particular, on an
empty ring buffer it returns Ok 0, a success, since min 0 maxLen = 0. -/
theorem pipe_read_writer_closed_returns_available (s : PipeRingBuffer)
    (h : PipeWF s) (maxLen : Nat) (nb : Bool) :
    (pipe_read true true nb s maxLen).1 = .ok (min s.available_read maxLen) ∧
    (pipe_read true true nb s maxLen).2.1 = (queueOf s).take maxLen := by
  have hmain := pipe_read_go_closed nb maxLen s 0 [] h (Nat.zero_le _)
  unfold pipe_read
  rw [hmain]
  simp

/-- Witness for C2 at the concrete input: a fresh empty buffer and a
five-byte read request in blocking mode. -/
theorem pipe_read_writer_closed_returns_available_witness :
    PipeWF PipeRingBuffer.new ∧
    ((pipe_read true true false PipeRingBuffer.new 5).1 =
        .ok (min PipeRingBuffer.new.available_read 5) ∧
      (pipe_read true true false PipeRingBuffer.new 5).2.1 =
        (queueOf PipeRingBuffer.new).take 5) :=
  ⟨wf_new, pipe_read_writer_closed_returns_available PipeRingBuffer.new wf_new 5 false⟩

/-- C3: after writing exactly 65536 bytes into a fresh ring buffer with no
intervening read, available_write is 0, a subsequent single-byte non-blocking
write fails with EAGAIN leaving the buffer untouched, and after reading one
byte available_write is 1. -/
theorem ring_buffer_capacity_law (bs : List Nat) (h : bs.length = 65536) :
    (writeList PipeRingBuffer.new bs).available_write = 0 ∧
    (pipe_write true true (writeList PipeRingBuffer.new bs) [0]).1 =
      .err .EAGAIN ∧
    (pipe_write true true (writeList PipeRingBuffer.new bs) [0]).2 =
      writeList PipeRingBuffer.new bs ∧
    ((writeList PipeRingBuffer.new bs).read_byte).2.available_write = 1 := by
  obtain ⟨hw, hq⟩ := writeList_spec bs PipeRingBuffer.new wf_new
    (by rw [queueOf_new, rbs_lit]; simp [h])
  have havail : (writeList PipeRingBuffer.new bs).available_read = 65536 := by
    rw [← queueOf_length, hq, queueOf_new]
    simp [h]
  have haw : (writeList PipeRingBuffer.new bs).available_write = 0 := by
    rw [available_write_eq _ hw, havail, rbs_lit]
  have hfail : pipe_write true true (writeList PipeRingBuffer.new bs) [0] =
      (.err .EAGAIN, writeList PipeRingBuffer.new bs) := by
    show pipe_write_go true [0] 1 (writeList PipeRingBuffer.new bs) 0 = _
    rw [pipe_write_go.eq_def]
    simp [haw, RING_BUFFER_SIZE]
  have hne : (writeList PipeRingBuffer.new bs).status ≠ .Empty := by
    intro he
    have := (avail_zero_iff _ hw).2 he
    omega
  have hwf2 := read_byte_wf _ hw hne
  have ha2 := read_byte_avail _ hw hne
  refine ⟨haw, by rw [hfail], by rw [hfail], ?_⟩
  rw [available_write_eq _ hwf2, ha2, havail, rbs_lit]

/-- Witness for C3 at the concrete input: 65536 zero bytes. -/
theorem ring_buffer_capacity_law_witness :
    (List.replicate 65536 0).length = 65536 ∧
    ((writeList PipeRingBuffer.new (List.replicate 65536 0)).available_write = 0 ∧
      (pipe_write true true (writeList PipeRingBuffer.new (List.replicate 65536 0))
          [0]).1 = .err .EAGAIN ∧
      (pipe_write true true (writeList PipeRingBuffer.new (List.replicate 65536 0))
          [0]).2 = writeList PipeRingBuffer.new (List.replicate 65536 0) ∧
      ((writeList PipeRingBuffer.new (List.replicate 65536 0)).read_byte).2.available_write
          = 1) :=
  ⟨List.length_replicate 65536 0,
    ring_buffer_capacity_law (List.replicate 65536 0)
      (List.length_replicate 65536 0)⟩

/-- C9: the ring buffer is a FIFO queue: writing any byte sequence of length
at most 65536 into a fresh buffer and reading its length back returns exactly
that sequence, in order, across index wrap-around. -/
theorem pipe_fifo_roundtrip (bs : List Nat) (h : bs.length ≤ 65536) :
    (readN (writeList PipeRingBuffer.new bs) bs.length).1 = bs := by
  obtain ⟨hw, hq⟩ := writeList_spec bs PipeRingBuffer.new wf_new
    (by rw [queueOf_new, rbs_lit]; simpa using h)
  have hlen : bs.length ≤ (writeList PipeRingBuffer.new bs).available_read := by
    rw [← queueOf_length, hq, queueOf_new]
    simp
  obtain ⟨h1, _, _⟩ := readN_spec bs.length _ hw hlen
  rw [h1, hq, queueOf_new, List.nil_append, List.take_length]

/-- Witness for C9 at the concrete input [1, 2, 3]. -/
theorem pipe_fifo_roundtrip_witness :
    ([1, 2, 3] : List Nat).length ≤ 65536 ∧
    (readN (writeList PipeRingBuffer.new [1, 2, 3]) ([1, 2, 3] : List Nat).length).1
      = [1, 2, 3] :=
  ⟨by simp, pipe_fifo_roundtrip [1, 2, 3] (by simp)⟩

/-- C1 (code bug): a non-blocking write whose size n equals the free space f
exactly (here f = n = 1, with 65535 bytes already buffered) pushes all n bytes
into the shared ring buffer and then returns EAGAIN: the for loop exhausts
loop_write without hitting the early return, and the next loop iteration
takes the non-blocking branch with zero space left.  The claim (and the
source's own comment, pipe.rs lines 169-170, and POSIX) requires Ok n with
the data written exactly once; the code instead reports failure after
transferring the data, so a retrying caller would duplicate it.  The
conjuncts: the call returns EAGAIN, yet afterwards the shared buffer holds
65536 bytes and slot 65535 holds the written byte 7. -/
theorem pipe_write_exact_fit_eagain_after_transfer :
    (pipe_write true true c1state [7]).1 = .err .EAGAIN ∧
    (pipe_write true true c1state [7]).2.available_read = 65536 ∧
    (pipe_write true true c1state [7]).2.arr 65535 = 7 := by
  have havw : c1state.available_write = 1 := rfl
  have havw2 : (c1state.write_byte 7).available_write = 0 := rfl
  have step1 : pipe_write true true c1state [7] =
      pipe_write_go true [7] 1 (c1state.write_byte 7) 1 := by
    show pipe_write_go true [7] 1 c1state 0 = _
    rw [pipe_write_go.eq_def]
    simp [havw, writeList]
  have step2 : pipe_write_go true [7] 1 (c1state.write_byte 7) 1 =
      (.err .EAGAIN, c1state.write_byte 7) := by
    rw [pipe_write_go.eq_def]
    simp [havw2, RING_BUFFER_SIZE]
  rw [step1, step2]
  exact ⟨rfl, rfl, rfl⟩

/-! ## Inode allocator theorems (C4) -/

theorem slab_insert_occupied (s : Slab) (key : Nat) (s2 : Slab)
    (h : s.insert = some (key, s2)) :
    s.entries.get? key ≠ some .occupied ∧
    s2.entries.get? key = some .occupied ∧
    ∀ j, j ≠ key → s2.entries.get? j = s.entries.get? j := by
  unfold Slab.insert at h
  by_cases hk : s.next = s.entries.length
  · rw [if_pos hk] at h
    simp only [Option.some.injEq, Prod.mk.injEq] at h
    obtain ⟨hkey, hs2⟩ := h
    subst hkey
    subst hs2
    refine ⟨?_, ?_, ?_⟩
    · rw [List.get?_eq_none.mpr (by omega)]
      simp
    · rw [hk]
      exact List.get?_concat_length _ _
    · intro j hj
      rcases lt_or_ge j s.entries.length with hlt | hge
      · exact List.get?_append hlt
      · have hj2 : s.entries.length + 1 ≤ j := by omega
        rw [List.get?_eq_none.mpr (by simpa using hj2),
          List.get?_eq_none.mpr hge]
  · rw [if_neg hk] at h
    cases hget : s.entries.get? s.next with
    | none =>
      rw [hget] at h
      simp at h
    | some e =>
      cases e with
      | occupied =>
        rw [hget] at h
        simp at h
      | vacant n =>
        rw [hget] at h
        simp only [Option.some.injEq, Prod.mk.injEq] at h
        obtain ⟨hkey, hs2⟩ := h
        subst hkey
        subst hs2
        have hlt : s.next < s.entries.length := by
          by_contra hge
          rw [List.get?_eq_none.mpr (by omega)] at hget
          cases hget
        refine ⟨by rw [hget]; simp, ?_, ?_⟩
        · exact List.get?_set_eq_of_lt _ hlt
        · intro j hj
          exact List.get?_set_ne _ _ (fun hc => hj hc.symm)

theorem slab_remove_spec (s : Slab) (key : Nat) (s2 : Slab)
    (h : s.remove key = some s2) :
    s.entries.get? key = some .occupied ∧
    s2.entries.get? key = some (.vacant s.next) ∧
    ∀ j, j ≠ key → s2.entries.get? j = s.entries.get? j := by
  unfold Slab.remove at h
  cases hget : s.entries.get? key with
  | none =>
    rw [hget] at h
    simp at h
  | some e =>
    cases e with
    | vacant n =>
      rw [hget] at h
      simp at h
    | occupied =>
      rw [hget] at h
      simp only [Option.some.injEq] at h
      subst h
      have hlt : key < s.entries.length := by
        by_contra hge
        rw [List.get?_eq_none.mpr (by omega)] at hget
        cases hget
      refine ⟨rfl, List.get?_set_eq_of_lt _ hlt, ?_⟩
      intro j hj
      exact List.get?_set_ne _ _ (fun hc => hj hc.symm)

theorem fs_step_inv (st : FsState) (op : FsOp) (st2 : FsState)
    (hinv : FsInv st) (hstep : st.step op = some st2) : FsInv st2 := by
  obtain ⟨hnd, hmem⟩ := hinv
  cases op with
  | create =>
    simp only [FsState.step] at hstep
    cases hins : st.slab.insert with
    | none =>
      rw [hins] at hstep
      cases hstep
    | some r =>
      rw [hins] at hstep
      obtain ⟨key, s2⟩ := r
      simp only [Option.map_some', Option.some.injEq] at hstep
      subst hstep
      obtain ⟨hnotocc, hocc, hframe⟩ := slab_insert_occupied _ _ _ hins
      have hnew : (key + 1) ∉ st.live := by
        intro hmem2
        exact hnotocc (by simpa using (hmem _ hmem2).2)
      constructor
      · simpa [List.nodup_append] using ⟨hnd, fun hc => hnew hc⟩
      · intro ino hino
        rcases List.mem_append.mp hino with hold | hnewm
        · obtain ⟨h1, h2⟩ := hmem ino hold
          refine ⟨h1, ?_⟩
          rcases eq_or_ne (ino - 1) key with he | hne
          · exact absurd (by rw [← he]; exact h2) hnotocc
          · rw [hframe _ hne]
            exact h2
        · simp only [List.mem_singleton] at hnewm
          subst hnewm
          simpa using hocc
  | destroy ino0 =>
    simp only [FsState.step] at hstep
    by_cases hin : ino0 ∈ st.live
    · rw [if_pos hin] at hstep
      cases hrem : st.slab.remove (ino0 - 1) with
      | none =>
        rw [hrem] at hstep
        cases hstep
      | some s2 =>
        rw [hrem] at hstep
        simp only [Option.map_some', Option.some.injEq] at hstep
        subst hstep
        obtain ⟨hocc0, hvac, hframe⟩ := slab_remove_spec _ _ _ hrem
        constructor
        · exact hnd.erase ino0
        · intro ino hino
          have hne0 : ino ≠ ino0 ∧ ino ∈ st.live :=
            ((hnd.mem_erase_iff).mp hino)
          obtain ⟨h1, h2⟩ := hmem ino hne0.2
          refine ⟨h1, ?_⟩
          have hix : ino - 1 ≠ ino0 - 1 := by
            have := (hmem ino0 hin).1
            omega
          rw [hframe _ hix]
          exact h2
    · rw [if_neg hin] at hstep
      cases hstep

theorem fs_run_inv (ops : List FsOp) : ∀ st st2 : FsState, FsInv st →
    st.run ops = some st2 → FsInv st2 := by
  induction ops with
  | nil =>
    intro st st2 hinv hrun
    unfold FsState.run at hrun
    simp only [Option.some.injEq] at hrun
    subst hrun
    exact hinv
  | cons op rest ih =>
    intro st st2 hinv hrun
    unfold FsState.run at hrun
    cases hstep : st.step op with
    | none =>
      rw [hstep] at hrun
      cases hrun
    | some stm =>
      rw [hstep] at hrun
      exact ih stm st2 (fs_step_inv st op stm hinv hstep) hrun

theorem fs_init_inv : FsInv FsState.init := by
  constructor
  · exact List.nodup_nil
  · intro ino hino
    cases hino

/-- C4: for every sequence of DynamicNode creations and destructions on one
DynamicFs, no two simultaneously-live nodes carry the same inode number
(the live inode list is duplicate-free); and a released inode number can
later be reassigned: after create, create, destroy 1, create the live inodes
are [2, 1] where 1 had been released and is live again. -/
theorem dynamicfs_inode_uniqueness (ops : List FsOp) (st : FsState)
    (h : FsState.init.run ops = some st) :
    st.live.Nodup ∧
    (FsState.init.run [.create, .create, .destroy 1, .create]).map FsState.live
      = some [2, 1] := by
  refine ⟨(fs_run_inv ops FsState.init st fs_init_inv h).1, rfl⟩

/-- Witness for C4 at the concrete reuse trace. -/
theorem dynamicfs_inode_uniqueness_witness :
    FsState.init.run [.create, .create, .destroy 1, .create] =
      some ⟨⟨[.occupied, .occupied], 2⟩, [2, 1]⟩ ∧
    (([2, 1] : List Nat).Nodup ∧
      (FsState.init.run [.create, .create, .destroy 1, .create]).map FsState.live
        = some [2, 1]) :=
  ⟨rfl, dynamicfs_inode_uniqueness [.create, .create, .destroy 1, .create]
    ⟨⟨[.occupied, .occupied], 2⟩, [2, 1]⟩ rfl⟩

/-! ## Directory enumeration theorems (C5) -/

theorem readDirGo_spec (metaOf : String → Nat)
    (sink : String → Nat → Nat → Bool) :
    ∀ l : List (Nat × String),
      readDirGo metaOf sink l =
        (((l.takeWhile fun p => sink p.2 (metaOf p.2) (p.1 + 1)).map
            fun p => (⟨p.2, metaOf p.2, p.1 + 1⟩ : EmittedEntry)).length,
         (l.takeWhile fun p => sink p.2 (metaOf p.2) (p.1 + 1)).map
            fun p => (⟨p.2, metaOf p.2, p.1 + 1⟩ : EmittedEntry)) := by
  intro l
  induction l with
  | nil => rfl
  | cons hd rest ih =>
    obtain ⟨i, name⟩ := hd
    unfold readDirGo
    by_cases hs : sink name (metaOf name) (i + 1)
    · simp [hs, ih, List.takeWhile_cons]
    · simp [hs, List.takeWhile_cons]

theorem read_dir_tokens_increasing (staticKeys pseudo : List String)
    (metaOf : String → Nat) (offset : Nat)
    (sink : String → Nat → Nat → Bool) :
    ((read_dir staticKeys pseudo metaOf offset sink).2.map
      EmittedEntry.token).Pairwise (· < ·) := by
  unfold read_dir
  rw [readDirGo_spec]
  rw [List.map_map]
  have hsub : ((((allChildren staticKeys pseudo).enum).drop offset).takeWhile
      fun p => sink p.2 (metaOf p.2) (p.1 + 1)).Sublist
      ((allChildren staticKeys pseudo).enum) :=
    (List.takeWhile_sublist _).trans (List.drop_sublist _ _)
  have hmapped := hsub.map Prod.fst
  rw [List.enum_map_fst] at hmapped
  have hpair : (List.range (allChildren staticKeys pseudo).length).Pairwise
      (· < ·) := List.pairwise_lt_range _
  have hpair2 := hpair.sublist hmapped
  rw [List.pairwise_map] at hpair2
  rw [List.pairwise_map]
  exact hpair2.imp (by intro a b hab; simpa using Nat.succ_lt_succ hab)

/-- C5: for the dynamic directory whose static BTreeMap holds exactly the
names b and a and whose pseudo-ops list exactly the child c, enumeration from
offset 0: the chained child sequence is exactly ., .., a, b, c in that order
(static children in map order, pseudo children last); with an all-accepting
sink, read_dir emits all five entries with the strictly increasing
continuation tokens 1..5 and returns 5; for every sink, the emitted entries
are the maximal accepted prefix, the returned count is their number, and the
tokens are strictly increasing. -/
theorem dynamic_dir_enumeration (metaOf : String → Nat) :
    allChildren ((btreeInsert (btreeInsert ([] : List (String × Unit)) "b" ())
        "a" ()).map Prod.fst) ["c"] = [".", "..", "a", "b", "c"] ∧
    (read_dir ((btreeInsert (btreeInsert ([] : List (String × Unit)) "b" ())
        "a" ()).map Prod.fst) ["c"] metaOf 0 (fun _ _ _ => true)) =
      (5, [⟨".", metaOf ".", 1⟩, ⟨"..", metaOf "..", 2⟩, ⟨"a", metaOf "a", 3⟩,
           ⟨"b", metaOf "b", 4⟩, ⟨"c", metaOf "c", 5⟩]) ∧
    (∀ sink : String → Nat → Nat → Bool,
      (read_dir ((btreeInsert (btreeInsert ([] : List (String × Unit)) "b" ())
          "a" ()).map Prod.fst) ["c"] metaOf 0 sink).1 =
        (read_dir ((btreeInsert (btreeInsert ([] : List (String × Unit)) "b" ())
          "a" ()).map Prod.fst) ["c"] metaOf 0 sink).2.length ∧
      (read_dir ((btreeInsert (btreeInsert ([] : List (String × Unit)) "b" ())
          "a" ()).map Prod.fst) ["c"] metaOf 0 sink).2 =
        (([".", "..", "a", "b", "c"].enum.takeWhile
            fun p => sink p.2 (metaOf p.2) (p.1 + 1)).map
          fun p => (⟨p.2, metaOf p.2, p.1 + 1⟩ : EmittedEntry)) ∧
      ((read_dir ((btreeInsert (btreeInsert ([] : List (String × Unit)) "b" ())
          "a" ()).map Prod.fst) ["c"] metaOf 0 sink).2.map
        EmittedEntry.token).Pairwise (· < ·)) := by
  have hab : ("a" : String) < "b" := by
    rw [String.lt_iff_toList_lt]
    exact List.Lex.rel (by decide)
  have hkeys : (btreeInsert (btreeInsert ([] : List (String × Unit)) "b" ())
      "a" ()).map Prod.fst = ["a", "b"] := by
    simp [btreeInsert, hab]
  refine ⟨by rw [hkeys]; rfl, by rw [hkeys]; rfl, ?_⟩
  intro sink
  refine ⟨?_, ?_, read_dir_tokens_increasing _ _ _ _ _⟩
  · unfold read_dir
    rw [readDirGo_spec]
  · unfold read_dir
    rw [readDirGo_spec, hkeys]
    rfl

/-! ## Metadata update theorem (C8) -/

/-- C8: update_metadata has partial-update semantics: each supplied field
(mode, owner uid/gid pair, access time, modify time) is overwritten with the
supplied value, every unsupplied field keeps its previous value, all other
metadata fields (device, inode, link count, node type, size, block geometry,
raw device, change time) are untouched, and the node's ino field is never
changed. -/
theorem update_metadata_partial (m : Metadata) (u : MetadataUpdate)
    (n : DynamicNode) :
    (m.update_metadata u).mode = u.mode.getD m.mode ∧
    (m.update_metadata u).uid = (u.owner.map Prod.fst).getD m.uid ∧
    (m.update_metadata u).gid = (u.owner.map Prod.snd).getD m.gid ∧
    (m.update_metadata u).access_time = u.atime.getD m.access_time ∧
    (m.update_metadata u).modify_time = u.mtime.getD m.modify_time ∧
    (m.update_metadata u).device = m.device ∧
    (m.update_metadata u).inode = m.inode ∧
    (m.update_metadata u).n_link = m.n_link ∧
    (m.update_metadata u).node_type = m.node_type ∧
    (m.update_metadata u).size = m.size ∧
    (m.update_metadata u).block_size = m.block_size ∧
    (m.update_metadata u).n_blocks = m.n_blocks ∧
    (m.update_metadata u).raw_device = m.raw_device ∧
    (m.update_metadata u).change_time = m.change_time ∧
    (n.update_metadata u).ino = n.ino := by
  obtain ⟨mo, ow, ua, um⟩ := u
  cases mo <;> cases ow <;> cases ua <;> cases um <;>
    simp [Metadata.update_metadata, DynamicNode.update_metadata]

/-! ## File descriptor table theorems (C6, C7) -/

theorem findFree_none (t : List (Option FdTableItem))
    (h : findFree t = none) : ∀ i, t.get? i ≠ some none := by
  induction t with
  | nil => intro i hc; cases hc
  | cons hd rest ih =>
    cases hd with
    | none => cases h
    | some x =>
      intro i hc
      cases i with
      | zero => cases hc
      | succ j =>
        unfold findFree at h
        cases hf : findFree rest with
        | none => exact ih hf j hc
        | some k =>
          rw [hf] at h
          cases h

theorem findFree_some (t : List (Option FdTableItem)) :
    ∀ i, findFree t = some i → t.get? i = some none := by
  induction t with
  | nil => intro i h; cases h
  | cons hd rest ih =>
    intro i h
    cases hd with
    | none =>
      unfold findFree at h
      simp only [Option.some.injEq] at h
      subst h
      rfl
    | some x =>
      unfold findFree at h
      cases hf : findFree rest with
      | none =>
        rw [hf] at h
        cases h
      | some k =>
        rw [hf] at h
        simp only [Option.map_some', Option.some.injEq] at h
        subst h
        exact ih k hf

theorem tableCount_set_some (item : FdTableItem) :
    ∀ (t : List (Option FdTableItem)) (i : Nat), t.get? i = some none →
      tableCount (t.set i (some item)) = tableCount t + 1 := by
  intro t
  induction t with
  | nil => intro i h; cases h
  | cons hd rest ih =>
    intro i h
    cases i with
    | zero =>
      cases hd with
      | none =>
        simp [tableCount]
        omega
      | some x => cases h
    | succ j =>
      have := ih j h
      cases hd with
      | none => simpa [tableCount] using this
      | some x => simpa [tableCount, Nat.add_comm] using this

theorem tableCount_set_none :
    ∀ (t : List (Option FdTableItem)) (i : Nat) (x : FdTableItem),
      t.get? i = some (some x) →
      tableCount (t.set i none) + 1 = tableCount t := by
  intro t
  induction t with
  | nil => intro i x h; cases h
  | cons hd rest ih =>
    intro i x h
    cases i with
    | zero =>
      cases hd with
      | none => cases h
      | some y => simp [tableCount, Nat.add_comm]
    | succ j =>
      have := ih j x h
      cases hd with
      | none => simpa [tableCount] using this
      | some y =>
        simp only [List.set_cons_succ, tableCount]
        omega

theorem fd_add_fail (limit : Nat) (t : List (Option FdTableItem))
    (item : FdTableItem) (h : tableCount t ≥ limit) :
    fd_add limit t item = .error .EMFILE := by
  unfold fd_add
  rw [if_pos h]

theorem fd_add_success (limit : Nat) (t : List (Option FdTableItem))
    (item : FdTableItem) (hcount : tableCount t < limit)
    (hfree : findFree t ≠ none) :
    ∃ fd t2, fd_add limit t item = .ok (fd, t2) ∧
      t.get? fd = some none ∧
      t2 = t.set fd (some item) ∧
      t2.get? fd = some (some item) ∧
      tableCount t2 = tableCount t + 1 ∧
      ∀ j, j ≠ fd → t2.get? j = t.get? j := by
  unfold fd_add FdTable.add
  rw [if_neg (by omega)]
  cases hf : findFree t with
  | none => exact absurd hf hfree
  | some fd =>
    have hslot := findFree_some t fd hf
    have hlt : fd < t.length := by
      by_contra hge
      rw [List.get?_eq_none.mpr (by omega)] at hslot
      cases hslot
    refine ⟨fd, t.set fd (some item), rfl, hslot, rfl, ?_, ?_, ?_⟩
    · exact List.get?_set_eq_of_lt _ hlt
    · exact tableCount_set_some item t fd hslot
    · intro j hj
      exact List.get?_set_ne _ _ (fun hc => hj hc.symm)

theorem addIter_spec (limit : Nat) :
    ∀ (n : Nat) (t t2 : List (Option FdTableItem)),
      addIter limit t n = some t2 →
      tableCount t2 = tableCount t + n ∧
      (1 ≤ n → tableCount t + n ≤ limit) := by
  intro n
  induction n with
  | zero =>
    intro t t2 h
    unfold addIter at h
    simp only [Option.some.injEq] at h
    subst h
    exact ⟨rfl, by omega⟩
  | succ k ih =>
    intro t t2 h
    unfold addIter at h
    cases hadd : fd_add limit t ⟨0, 0⟩ with
    | error e =>
      rw [hadd] at h
      cases h
    | ok r =>
      rw [hadd] at h
      have hcount : tableCount t < limit := by
        by_contra hge
        rw [fd_add_fail limit t ⟨0, 0⟩ (by omega)] at hadd
        cases hadd
      have hfree : findFree t ≠ none := by
        intro hf
        unfold fd_add FdTable.add at hadd
        rw [if_neg (by omega), hf] at hadd
        cases hadd
      obtain ⟨fd, tm, heq, _, _, _, hcnt, _⟩ :=
        fd_add_success limit t ⟨0, 0⟩ hcount hfree
      rw [heq] at hadd
      simp only [Except.ok.injEq] at hadd
      subst hadd
      obtain ⟨ih1, ih2⟩ := ih tm t2 h
      constructor
      · rw [ih1, hcnt]
        omega
      · intro _
        rcases Nat.eq_zero_or_pos k with hk | hk
        · subst hk
          rw [ih1] at *
          omega
        · have := ih2 (by omega)
          rw [hcnt] at this
          omega

/-- C6: if N consecutive fd_add calls against soft limit N all succeeded
(possible exactly when the table started empty, e.g. after clear(); a freshly
constructed table already counts its three pre-populated standard-stream
descriptors against the limit), then the table holds N entries, the (N+1)-th
fd_add fails with EMFILE, and after removing any one present descriptor the
next fd_add succeeds. -/
theorem fd_table_limit_enforcement (limit : Nat)
    (t0 t1 : List (Option FdTableItem)) (hN : 1 ≤ limit)
    (h : addIter limit t0 limit = some t1) :
    tableCount t1 = limit ∧
    (∀ item, fd_add limit t1 item = .error .EMFILE) ∧
    ∀ fd item0, t1.get? fd = some (some item0) →
      ∀ item, ∃ t2 fd2 t3, FdTable.remove t1 fd = .ok t2 ∧
        fd_add limit t2 item = .ok (fd2, t3) := by
  obtain ⟨h1, h2⟩ := addIter_spec limit limit t0 t1 h
  have hc0 : tableCount t0 = 0 := by
    have := h2 hN
    omega
  have hc1 : tableCount t1 = limit := by omega
  refine ⟨hc1, fun item => fd_add_fail limit t1 item (by omega), ?_⟩
  intro fd item0 hfd item
  have hrem : FdTable.remove t1 fd = .ok (t1.set fd none) := by
    unfold FdTable.remove
    rw [hfd]
  have hlt : fd < t1.length := by
    by_contra hge
    rw [List.get?_eq_none.mpr (by omega)] at hfd
    cases hfd
  have hcnt2 : tableCount (t1.set fd none) + 1 = tableCount t1 :=
    tableCount_set_none t1 fd item0 hfd
  have hfree2 : findFree (t1.set fd none) ≠ none := by
    intro hf
    exact findFree_none _ hf fd (List.get?_set_eq_of_lt _ hlt)
  obtain ⟨fd2, t3, heq, _⟩ :=
    fd_add_success limit (t1.set fd none) item (by omega) hfree2
  exact ⟨t1.set fd none, fd2, t3, hrem, heq⟩

/-- Witness for C6: limit 2, an empty three-slot table, two successful adds,
then the failure and the remove-then-succeed behavior. -/
theorem fd_table_limit_enforcement_witness :
    1 ≤ 2 ∧ addIter 2 [none, none, none] 2 =
      some [some ⟨0, 0⟩, some ⟨0, 0⟩, none] ∧
    (tableCount [some ⟨0, 0⟩, some ⟨0, 0⟩, none] = 2 ∧
      (∀ item, fd_add 2 [some ⟨0, 0⟩, some ⟨0, 0⟩, none] item =
        .error .EMFILE) ∧
      ∀ fd item0,
        ([some ⟨0, 0⟩, some ⟨0, 0⟩, none] :
          List (Option FdTableItem)).get? fd = some (some item0) →
        ∀ item, ∃ t2 fd2 t3,
          FdTable.remove [some ⟨0, 0⟩, some ⟨0, 0⟩, none] fd = .ok t2 ∧
          fd_add 2 t2 item = .ok (fd2, t3)) :=
  ⟨by omega, rfl,
    fd_table_limit_enforcement 2 [none, none, none]
      [some ⟨0, 0⟩, some ⟨0, 0⟩, none] (by omega) rfl⟩

/-- C7: sys_dup on a valid descriptor returns a fresh descriptor whose table
entry holds the same underlying file-like handle as the original (the shared
Arc, modelled as the identifier file_like) with fd flags 0, so the
close-on-exec flag of the duplicate is clear whatever the original's flags
were; the original entry is unchanged. -/
theorem sys_dup_shares_object_clears_cloexec (limit : Nat)
    (t : List (Option FdTableItem)) (oldFd : Nat) (item : FdTableItem)
    (hold : t.get? oldFd = some (some item)) (hcount : tableCount t < limit)
    (hfree : findFree t ≠ none) :
    ∃ newFd t2, sys_dup limit t oldFd = .ok (newFd, t2) ∧
      newFd ≠ oldFd ∧
      t2.get? newFd = some (some ⟨item.file_like, 0⟩) ∧
      t2.get? oldFd = some (some item) := by
  unfold sys_dup
  rw [hold]
  obtain ⟨fd, t2, heq, hslot, _, hnew, _, hframe⟩ :=
    fd_add_success limit t ⟨item.file_like, 0⟩ hcount hfree
  have hne : fd ≠ oldFd := by
    intro he
    rw [he, hold] at hslot
    cases hslot
  refine ⟨fd, t2, heq, hne, hnew, ?_⟩
  rw [hframe oldFd (fun hc => hne hc.symm), hold]

/-- Witness for C7: duplicating descriptor 0 (handle 7, close-on-exec set,
flags 1) in a two-slot table with limit 2. -/
theorem sys_dup_shares_object_clears_cloexec_witness :
    (([some ⟨7, 1⟩, none] : List (Option FdTableItem)).get? 0 =
      some (some ⟨7, 1⟩)) ∧
    tableCount [some ⟨7, 1⟩, none] < 2 ∧
    findFree [some ⟨7, 1⟩, none] ≠ none ∧
    (∃ newFd t2, sys_dup 2 [some ⟨7, 1⟩, none] 0 = .ok (newFd, t2) ∧
      newFd ≠ 0 ∧
      t2.get? newFd = some (some ⟨(⟨7, 1⟩ : FdTableItem).file_like, 0⟩) ∧
      t2.get? 0 = some (some ⟨7, 1⟩)) :=
  ⟨rfl, by decide, by decide,
    sys_dup_shares_object_clears_cloexec 2 [some ⟨7, 1⟩, none] 0 ⟨7, 1⟩
      rfl (by decide) (by decide)⟩

/-! ## Epoll theorem (C10) -/

/-- C10: if any descriptor in the epoll watch set is absent from the file
descriptor table when readiness is polled, the whole poll_all call fails with
EBADF (the question-mark on fd_lookup propagates): the stale entry is not
skipped, not removed and not turned into a per-descriptor error event, no
matter which event bits were requested for it. -/
theorem epoll_poll_all_stale_fd_fails
    (lookup : Nat → Option (Except LinuxError PollState))
    (watch : List (Nat × EpollEvent))
    (h : ∃ p ∈ watch, lookup p.1 = none) :
    poll_all lookup watch = .error .EBADF := by
  induction watch with
  | nil =>
    obtain ⟨p, hp, _⟩ := h
    cases hp
  | cons hd rest ih =>
    obtain ⟨fd, ev⟩ := hd
    unfold poll_all
    cases hl : lookup fd with
    | none => rfl
    | some r =>
      have hrest : ∃ p ∈ rest, lookup p.1 = none := by
        obtain ⟨p, hp, hnone⟩ := h
        rcases List.mem_cons.mp hp with he | hm
        · subst he
          rw [hl] at hnone
          cases hnone
        · exact ⟨p, hm, hnone⟩
      cases r with
      | error e => rw [ih hrest]; rfl
      | ok st => rw [ih hrest]; rfl

/-- Witness for C10: one watched descriptor, 5, with EPOLLIN requested, and a
descriptor table in which no fd resolves. -/
theorem epoll_poll_all_stale_fd_fails_witness :
    (∃ p ∈ [((5 : Nat), (⟨1, 42⟩ : EpollEvent))],
      (fun _ => (none : Option (Except LinuxError PollState))) p.1 = none) ∧
    poll_all (fun _ => none) [(5, ⟨1, 42⟩)] = .error .EBADF :=
  ⟨⟨(5, ⟨1, 42⟩), by simp, rfl⟩,
    epoll_poll_all_stale_fd_fails (fun _ => none) [(5, ⟨1, 42⟩)]
      ⟨(5, ⟨1, 42⟩), by simp, rfl⟩⟩
